import Mathlib

/-!
Shallow embedding of the order-book engine (OrderBook.cpp and friends).

Prices and amounts (C++ `double`) are modelled as rationals; timestamps,
products and usernames are strings.  The order store (`OrderBook::orders`,
a `std::vector<OrderBookEntry>`) is a `List OrderBookEntry`.  Fallible
accesses (`orders[0]` on an empty vector) are modelled with `Option`.
`std::sort` guarantees only a sorted permutation of its input (the order of
equal keys is unspecified), so where that matters (`insertOrder`) it is
modelled as a relation; where only the permutation matters (the price sorts
inside `matchAsksToBids`) a concrete insertion sort stands in for it.
-/

/-- OrderBookEntry.h: `enum class OrderBookType{bid, ask, unknown, asksale, bidsale}`. -/
inductive OrderBookType where
  | bid
  | ask
  | unknown
  | asksale
  | bidsale
deriving DecidableEq, Repr

/-- OrderBookEntry.h: one record of the order book. -/
structure OrderBookEntry where
  price : ℚ
  amount : ℚ
  timestamp : String
  product : String
  orderType : OrderBookType
  username : String := "dataset"
deriving DecidableEq, Repr

/-- The order store: `OrderBook::orders`, a vector of entries. -/
abbrev Book := List OrderBookEntry

/-- The comparison `std::string::operator<`: lexicographic, stated on the
character list (definitionally the order underlying `String.lt`, see
`strLt_iff`, but with a `Decidable` instance the kernel evaluates). -/
def strLt (a b : String) : Prop := a.toList < b.toList

/-- Non-strict string comparison, as the negation of the reverse strict one. -/
def strLe (a b : String) : Prop := ¬ strLt b a

instance : DecidableRel strLt := fun a b =>
  inferInstanceAs (Decidable (a.toList < b.toList))

instance : DecidableRel strLe := fun a b =>
  inferInstanceAs (Decidable (¬ strLt b a))

theorem strLt_iff (a b : String) : strLt a b ↔ a < b :=
  String.lt_iff_toList_lt.symm

theorem strLe_iff (a b : String) : strLe a b ↔ a ≤ b := by
  rw [strLe, strLt_iff, not_lt]

/-- OrderBook::getOrders: all stored records whose side, product and timestamp
exactly equal the arguments, in storage order. -/
def getOrders (type : OrderBookType) (product timestamp : String)
    (orders : Book) : List OrderBookEntry :=
  orders.filter (fun e =>
    decide (e.orderType = type ∧ e.product = product ∧ e.timestamp = timestamp))

/-- Insertion of a key into the (sorted, duplicate-free) key sequence of a
`std::map<std::string, _>`: keys are kept in ascending order, inserting a
present key is a no-op on the key set. -/
def insertKey (s : String) : List String → List String
  | [] => [s]
  | x :: xs =>
    if strLt s x then s :: x :: xs
    else if s = x then x :: xs
    else x :: insertKey s xs

/-- OrderBook::getKnownProducts: marks each product in a `std::map` and returns
the map's keys, which a `std::map` yields deduplicated in ascending order. -/
def getKnownProducts (orders : Book) : List String :=
  orders.foldl (fun m e => insertKey e.product m) []

/-- OrderBook::getHighPrice: starts from `orders[0].price` and takes every
strictly larger price seen while scanning the whole vector.  The `[]` case
(out-of-bounds `orders[0]`) is unreachable in all call sites. -/
def getHighPrice : List OrderBookEntry → ℚ
  | [] => 0
  | e :: rest => (e :: rest).foldl (fun m x => if x.price > m then x.price else m) e.price

/-- OrderBook::getLowPrice: dual of `getHighPrice`. -/
def getLowPrice : List OrderBookEntry → ℚ
  | [] => 0
  | e :: rest => (e :: rest).foldl (fun m x => if x.price < m then x.price else m) e.price

/-- CSVReader::getAllTimestamps (body appended in src/OrderBook.h): reads the
two hardcoded CSV files with `readCSV` and inserts every read entry's
timestamp into a `std::set<std::string>`, returned as a sorted vector.  The
file contents are external input, so the entries read from the files are the
parameter `csvEntries` (first file's entries followed by the second's); the
resulting timeline is derived from the files alone and is independent of the
order store's current contents. -/
def getAllTimestamps (csvEntries : List OrderBookEntry) : List String :=
  csvEntries.foldl (fun m e => insertKey e.timestamp m) []

/-- Candlestick.h (appended in src/MerkelMain.cpp): timestamp plus the four
OHLC prices, built as `(ts, open, high, low, close)` at OrderBook.cpp:229.
The C++ field `open` is called `openPrice` here (`open` is a Lean keyword). -/
structure Candlestick where
  timestamp : String
  openPrice : ℚ
  high : ℚ
  low : ℚ
  close : ℚ
deriving DecidableEq, Repr

/-- The totVal accumulator of OrderBook::getCandlestickData. -/
def totVal (es : List OrderBookEntry) : ℚ :=
  (es.map (fun e => e.price * e.amount)).sum

/-- The totAmt accumulator of OrderBook::getCandlestickData. -/
def totAmt (es : List OrderBookEntry) : ℚ :=
  (es.map (fun e => e.amount)).sum

/-- The timestamp loop of OrderBook::getCandlestickData.  `isFirst` tracks
`candles.empty()` (true until the first candle is emitted) and `prevClose`
tracks the running `prevClose` variable. -/
def buildCandles (side : OrderBookType) (product : String) (orders : Book) :
    List String → Bool → ℚ → List Candlestick
  | [], _, _ => []
  | ts :: rest, isFirst, prevClose =>
    let entries := getOrders side product ts orders
    if entries.isEmpty then
      buildCandles side product orders rest isFirst prevClose
    else
      let high := getHighPrice entries
      let low := getLowPrice entries
      let close := totVal entries / totAmt entries
      let openP := if isFirst then close else prevClose
      ⟨ts, openP, high, low, close⟩ :: buildCandles side product orders rest false close

/-- OrderBook::getCandlestickData: iterate the file-derived timeline
`CSVReader::getAllTimestamps()` (OrderBook.cpp:199) ascending — NOT the
store's own timestamps — skip the timestamps with no matching orders, emit
OHLC candles with VWAP close.  `csvEntries` is the external file data the
timeline is computed from. -/
def getCandlestickData (side : OrderBookType) (product : String) (orders : Book)
    (csvEntries : List OrderBookEntry) : List Candlestick :=
  buildCandles side product orders (getAllTimestamps csvEntries) true 0

/-- OrderBook::getEarliestTime: `orders[0].timestamp`; the out-of-bounds access
on an empty store is the `none` case. -/
def getEarliestTime (orders : Book) : Option String :=
  orders.head?.map (fun e => e.timestamp)

/-- OrderBook::getNextTime: first stored entry with a strictly greater
timestamp; if none, wrap around to `orders[0].timestamp` (out-of-bounds on an
empty store is the `none` case). -/
def getNextTime (timestamp : String) (orders : Book) : Option String :=
  match orders.find? (fun e => decide (strLt timestamp e.timestamp)) with
  | some e => some e.timestamp
  | none => orders.head?.map (fun e => e.timestamp)

/-- OrderBookEntry::compareByTimestamp (`e1.timestamp < e2.timestamp`), as the
non-strict relation a sorted result satisfies. -/
def tsLe (a b : OrderBookEntry) : Prop := strLe a.timestamp b.timestamp

instance : DecidableRel tsLe := fun a b =>
  inferInstanceAs (Decidable (strLe a.timestamp b.timestamp))

/-- Postcondition of `std::sort(v, cmp)`: the result is a permutation of the
input, pairwise ordered by the non-strict companion of `cmp`.  `std::sort`
guarantees nothing more: the relative order of equal keys is unspecified. -/
def IsSortResult (le : OrderBookEntry → OrderBookEntry → Prop)
    (input output : List OrderBookEntry) : Prop :=
  output.Perm input ∧ output.Pairwise le

/-- OrderBook::insertOrder: push the order at the back, then
`std::sort(orders, OrderBookEntry::compareByTimestamp)`.  Relational because
`std::sort` leaves the order of equal timestamps unspecified. -/
def InsertOrder (orders : Book) (order : OrderBookEntry) (after : Book) : Prop :=
  IsSortResult tsLe (orders ++ [order]) after

/-- A sequence of insertOrder calls. -/
inductive InsertSeq : Book → List OrderBookEntry → Book → Prop where
  | nil (b : Book) : InsertSeq b [] b
  | cons {b b₁ b₂ : Book} {o : OrderBookEntry} {os : List OrderBookEntry} :
      InsertOrder b o b₁ → InsertSeq b₁ os b₂ → InsertSeq b (o :: os) b₂

/-- The sale entry built inside OrderBook::matchAsksToBids: price is the
ask's price, amount a placeholder, default side asksale and owner "dataset";
then re-tagged bidsale if the bid leg is the simulation user's, and asksale
(overriding) if the ask leg is. -/
def mkSale (product timestamp : String) (a b : OrderBookEntry) : OrderBookEntry :=
  let s : OrderBookEntry :=
    { price := a.price, amount := 0, timestamp := timestamp, product := product,
      orderType := OrderBookType.asksale, username := "dataset" }
  let s := if b.username = "simuser"
    then { s with username := "simuser", orderType := OrderBookType.bidsale } else s
  if a.username = "simuser"
    then { s with username := "simuser", orderType := OrderBookType.asksale } else s

/-- The inner (bids) loop of OrderBook::matchAsksToBids for one ask `a`:
returns the sales generated for this ask and the bids vector as left by the
loop.  Branches mirror the source: equal amounts (record, zero the bid,
break), bid larger (record, decrement the bid, break), bid smaller and
positive (record, zero the bid, keep scanning with the reduced ask), bid
exhausted or price too low (skip). -/
def matchLoop (product timestamp : String) :
    OrderBookEntry → List OrderBookEntry → List OrderBookEntry × List OrderBookEntry
  | _, [] => ([], [])
  | a, b :: rest =>
    if b.price ≥ a.price then
      let sale := mkSale product timestamp a b
      if b.amount = a.amount then
        ([{ sale with amount := a.amount }], { b with amount := 0 } :: rest)
      else if b.amount > a.amount then
        ([{ sale with amount := a.amount }], { b with amount := b.amount - a.amount } :: rest)
      else
        if b.amount > 0 then
          let res := matchLoop product timestamp { a with amount := a.amount - b.amount } rest
          ({ sale with amount := b.amount } :: res.1, { b with amount := 0 } :: res.2)
        else
          let res := matchLoop product timestamp a rest
          (res.1, b :: res.2)
    else
      let res := matchLoop product timestamp a rest
      (res.1, b :: res.2)

/-- The outer (asks) loop of OrderBook::matchAsksToBids: thread the mutated
bids vector through the asks, concatenating the sales. -/
def matchAll (product timestamp : String) :
    List OrderBookEntry → List OrderBookEntry → List OrderBookEntry
  | [], _ => []
  | a :: as, bids =>
    let res := matchLoop product timestamp a bids
    res.1 ++ matchAll product timestamp as res.2

/-- OrderBookEntry::compareByPriceAsc. -/
def compareByPriceAsc (a b : OrderBookEntry) : Prop := a.price < b.price

/-- OrderBookEntry::compareByPriceDesc. -/
def compareByPriceDesc (a b : OrderBookEntry) : Prop := a.price > b.price

instance : DecidableRel compareByPriceAsc := fun a b =>
  inferInstanceAs (Decidable (a.price < b.price))

instance : DecidableRel compareByPriceDesc := fun a b =>
  inferInstanceAs (Decidable (a.price > b.price))

/-- OrderBook::matchAsksToBids as a state transformer on the store: the member
function reads `orders` (through `getOrders`, which copies the matching
entries into fresh vectors) and never writes it, so the store component is
returned unchanged.  The price sorts stand in for `std::sort` (only their
permutation property is used downstream). -/
def matchAsksToBidsS (product timestamp : String) (orders : Book) :
    List OrderBookEntry × Book :=
  let asks := getOrders OrderBookType.ask product timestamp orders
  let bids := getOrders OrderBookType.bid product timestamp orders
  if asks.isEmpty ∨ bids.isEmpty then ([], orders)
  else
    let asks := asks.insertionSort compareByPriceAsc
    let bids := bids.insertionSort compareByPriceDesc
    (matchAll product timestamp asks bids, orders)

/-- The sales list returned by OrderBook::matchAsksToBids. -/
def matchAsksToBids (product timestamp : String) (orders : Book) :
    List OrderBookEntry :=
  (matchAsksToBidsS product timestamp orders).1

/-- Sum of the `amount` fields of a list of entries. -/
def sumAmt (l : List OrderBookEntry) : ℚ := (l.map (fun e => e.amount)).sum

/-- The timestamps stored in a book, in storage order. -/
def timestamps (orders : Book) : List String := orders.map (fun e => e.timestamp)

/-! ### Order facts about `strLt`, `strLe` -/

theorem strLe_refl (a : String) : strLe a a := by
  rw [strLe_iff]

theorem strLe_trans {a b c : String} (h1 : strLe a b) (h2 : strLe b c) : strLe a c := by
  rw [strLe_iff] at h1 h2 ⊢
  exact le_trans h1 h2

theorem strLe_antisymm {a b : String} (h1 : strLe a b) (h2 : strLe b a) : a = b := by
  rw [strLe_iff] at h1 h2
  exact le_antisymm h1 h2

theorem strLe_of_strLt {a b : String} (h : strLt a b) : strLe a b := by
  rw [strLt_iff] at h
  rw [strLe_iff]
  exact le_of_lt h

theorem strLt_of_strLe_ne {a b : String} (h1 : strLe a b) (h2 : a ≠ b) : strLt a b := by
  rw [strLe_iff] at h1; rw [strLt_iff]
  exact lt_of_le_of_ne h1 h2

theorem strLt_irrefl (a : String) : ¬ strLt a a := by
  rw [strLt_iff]
  exact lt_irrefl a

theorem strLt_trans {a b c : String} (h1 : strLt a b) (h2 : strLt b c) : strLt a c := by
  rw [strLt_iff] at h1 h2 ⊢
  exact lt_trans h1 h2

theorem strLt_ne {a b : String} (h : strLt a b) : a ≠ b := by
  rw [strLt_iff] at h
  exact ne_of_lt h

theorem strLe_total (a b : String) : strLe a b ∨ strLe b a := by
  rw [strLe_iff, strLe_iff]
  exact le_total a b

theorem strLe_of_not_strLt {a b : String} (h : ¬ strLt a b) : strLe b a := h

/-! ### `insertKey` and the sorted key sequences built from it -/

theorem mem_insertKey {s x : String} : ∀ {l : List String},
    x ∈ insertKey s l ↔ x = s ∨ x ∈ l := by
  intro l
  induction l with
  | nil => simp [insertKey]
  | cons a l ih =>
    by_cases h1 : strLt s a
    · simp [insertKey, h1]
    · by_cases h2 : s = a
      · subst h2
        simp only [insertKey, if_neg h1, eq_self_iff_true, if_true, List.mem_cons]
        tauto
      · simp only [insertKey, if_neg h1, if_neg h2, List.mem_cons, ih]
        tauto

theorem sorted_insertKey {s : String} : ∀ {l : List String},
    l.Pairwise strLt → (insertKey s l).Pairwise strLt := by
  intro l
  induction l with
  | nil => intro _; simp [insertKey]
  | cons a l ih =>
    intro hs
    rw [List.pairwise_cons] at hs
    by_cases h1 : strLt s a
    · rw [insertKey, if_pos h1, List.pairwise_cons]
      refine ⟨?_, List.pairwise_cons.mpr hs⟩
      intro b hb
      rcases List.mem_cons.mp hb with hb | hb
      · exact hb ▸ h1
      · exact strLt_trans h1 (hs.1 b hb)
    · by_cases h2 : s = a
      · rw [insertKey, if_neg h1, if_pos h2]
        exact List.pairwise_cons.mpr hs
      · rw [insertKey, if_neg h1, if_neg h2, List.pairwise_cons]
        refine ⟨?_, ih hs.2⟩
        intro b hb
        rcases mem_insertKey.mp hb with hb | hb
        · subst hb
          exact strLt_of_strLe_ne (strLe_of_not_strLt h1) (Ne.symm h2)
        · exact hs.1 b hb

theorem foldl_insertKey_sorted (g : OrderBookEntry → String) :
    ∀ (es : Book) (acc : List String), acc.Pairwise strLt →
      (es.foldl (fun m e => insertKey (g e) m) acc).Pairwise strLt := by
  intro es
  induction es with
  | nil => intro acc h; exact h
  | cons e es ih =>
    intro acc h
    exact ih (insertKey (g e) acc) (sorted_insertKey h)

theorem mem_foldl_insertKey (g : OrderBookEntry → String) :
    ∀ (es : Book) (acc : List String) (x : String),
      x ∈ es.foldl (fun m e => insertKey (g e) m) acc ↔
        x ∈ acc ∨ ∃ e ∈ es, g e = x := by
  intro es
  induction es with
  | nil => intro acc x; simp
  | cons e es ih =>
    intro acc x
    rw [List.foldl_cons, ih, mem_insertKey]
    constructor
    · rintro ((h | h) | ⟨e1, he1, hg⟩)
      · exact Or.inr ⟨e, List.mem_cons_self e es, h.symm⟩
      · exact Or.inl h
      · exact Or.inr ⟨e1, List.mem_cons_of_mem e he1, hg⟩
    · rintro (h | ⟨e1, he1, hg⟩)
      · exact Or.inl (Or.inr h)
      · rcases List.mem_cons.mp he1 with h | h
        · exact Or.inl (Or.inl (h ▸ hg).symm)
        · exact Or.inr ⟨e1, h, hg⟩

/-- Claim C9: `getKnownProducts` returns each distinct product value present in
the store exactly once, in ascending lexicographic order: its result is
strictly sorted (hence duplicate-free) and contains a string iff some stored
record has it as product. -/
theorem getKnownProducts_spec (orders : Book) :
    (getKnownProducts orders).Pairwise strLt ∧
    (getKnownProducts orders).Nodup ∧
    ∀ s, s ∈ getKnownProducts orders ↔ ∃ e ∈ orders, e.product = s := by
  have hsorted : (getKnownProducts orders).Pairwise strLt :=
    foldl_insertKey_sorted (fun e => e.product) orders [] List.Pairwise.nil
  refine ⟨hsorted, hsorted.imp (fun h => strLt_ne h), ?_⟩
  intro s
  rw [getKnownProducts, mem_foldl_insertKey]
  simp

/-- Claim C9 witness: evaluated on a concrete two-product store. -/
theorem getKnownProducts_spec_witness :
    ("B" ∈ getKnownProducts
        [⟨1, 1, "t", "B", OrderBookType.ask, "dataset"⟩,
         ⟨2, 1, "t", "A", OrderBookType.bid, "dataset"⟩] ↔
      ∃ e ∈ ([⟨1, 1, "t", "B", OrderBookType.ask, "dataset"⟩,
              ⟨2, 1, "t", "A", OrderBookType.bid, "dataset"⟩] : Book), e.product = "B") ∧
    (getKnownProducts
        [⟨1, 1, "t", "B", OrderBookType.ask, "dataset"⟩,
         ⟨2, 1, "t", "A", OrderBookType.bid, "dataset"⟩]).Pairwise strLt :=
  ⟨(getKnownProducts_spec _).2.2 "B", (getKnownProducts_spec _).1⟩

/-! ### Earliest and next timestamp (C5, C6) -/

theorem timestamps_cons {x : OrderBookEntry} {l : Book} :
    timestamps (x :: l) = x.timestamp :: timestamps l := rfl

theorem mem_timestamps {u : String} {orders : Book} :
    u ∈ timestamps orders ↔ ∃ e ∈ orders, e.timestamp = u := by
  simp [timestamps]

theorem pairwise_get_le {D : List String} (hD : D.Pairwise strLe)
    (i j : Fin D.length) (hij : (i : ℕ) ≤ (j : ℕ)) : strLe (D.get i) (D.get j) := by
  rcases Nat.eq_or_lt_of_le hij with h | h
  · have h2 : i = j := Fin.ext h
    subst h2
    exact strLe_refl _
  · exact List.pairwise_iff_get.mp hD i j h

theorem pairwise_get_lt {D : List String} (hD : D.Pairwise strLt)
    (i j : Fin D.length) (hij : (i : ℕ) < (j : ℕ)) : strLt (D.get i) (D.get j) :=
  List.pairwise_iff_get.mp hD i j hij

/-- In a timestamp-sorted store, a find with predicate `t < timestamp`
returns an entry whose timestamp is minimal among the stored timestamps
strictly above `t`. -/
theorem find_next_spec {t : String} :
    ∀ {orders : Book}, orders.Pairwise tsLe →
      ∀ {e}, orders.find? (fun x => decide (strLt t x.timestamp)) = some e →
        strLt t e.timestamp ∧ e ∈ orders ∧
        ∀ u ∈ timestamps orders, strLt t u → strLe e.timestamp u := by
  intro orders
  induction orders with
  | nil =>
    intro _ e h
    simp at h
  | cons x l ih =>
    intro hp e hfind
    rw [List.pairwise_cons] at hp
    by_cases hx : strLt t x.timestamp
    · rw [List.find?_cons_of_pos _ (by simpa using hx)] at hfind
      cases hfind
      refine ⟨hx, List.mem_cons_self x l, ?_⟩
      intro u hu _
      rw [timestamps_cons, List.mem_cons] at hu
      rcases hu with hu | hu
      · exact hu ▸ strLe_refl _
      · obtain ⟨y, hy, rfl⟩ := mem_timestamps.mp hu
        exact hp.1 y hy
    · rw [List.find?_cons_of_neg _ (by simpa using hx)] at hfind
      obtain ⟨h1, h2, h3⟩ := ih hp.2 hfind
      refine ⟨h1, List.mem_cons_of_mem x h2, ?_⟩
      intro u hu htu
      rw [timestamps_cons, List.mem_cons] at hu
      rcases hu with hu | hu
      · exact absurd (hu ▸ htu) hx
      · exact h3 u hu htu

/-- In a sorted nonempty store the head's timestamp is minimal. -/
theorem head_min {x : OrderBookEntry} {l : Book} (hp : (x :: l).Pairwise tsLe) :
    ∀ u ∈ timestamps (x :: l), strLe x.timestamp u := by
  rw [List.pairwise_cons] at hp
  intro u hu
  rw [timestamps_cons, List.mem_cons] at hu
  rcases hu with hu | hu
  · exact hu ▸ strLe_refl _
  · obtain ⟨y, hy, rfl⟩ := mem_timestamps.mp hu
    exact hp.1 y hy

/-- The first element of the deduplicated timestamp timeline is the earliest
stored timestamp. -/
theorem earliest_eq_dedup_head (orders : Book) (hp : orders.Pairwise tsLe)
    (h0 : 0 < (timestamps orders).dedup.length) :
    getEarliestTime orders = some ((timestamps orders).dedup.get ⟨0, h0⟩) := by
  have hts : (timestamps orders).Pairwise strLe := List.pairwise_map.mpr hp
  have hDle : (timestamps orders).dedup.Pairwise strLe :=
    List.Pairwise.sublist (List.dedup_sublist _) hts
  cases orders with
  | nil => simp [timestamps, List.dedup_nil] at h0
  | cons x l =>
    have hmemx : x.timestamp ∈ (timestamps (x :: l)).dedup :=
      List.mem_dedup.mpr (by rw [timestamps_cons]; exact List.mem_cons_self _ _)
    obtain ⟨j, hj⟩ := List.mem_iff_get.mp hmemx
    have hle1 : strLe ((timestamps (x :: l)).dedup.get ⟨0, h0⟩) x.timestamp :=
      hj ▸ pairwise_get_le hDle ⟨0, h0⟩ j (Nat.zero_le _)
    have hle2 : strLe x.timestamp ((timestamps (x :: l)).dedup.get ⟨0, h0⟩) :=
      head_min hp _ (List.mem_dedup.mp (List.get_mem _ _ _))
    rw [getEarliestTime]
    simp only [List.head?_cons, Option.map_some']
    exact congrArg some (strLe_antisymm hle2 hle1)

/-- A small concrete sorted two-timestamp store used by several witnesses. -/
def bkW : Book :=
  [⟨1, 1, "s", "P", OrderBookType.ask, "dataset"⟩,
   ⟨2, 1, "t", "P", OrderBookType.ask, "dataset"⟩]

/-- Claim C6 (evaluation at the failing input): the code is an unguarded
`orders[0].timestamp`, so the empty store hits an out-of-bounds access — the
embedding's `none` — and the code constructs no EmptyStore error to surface
to the caller, contradicting the claim (the empty-store case is undefined
behavior, not a surfaced error).  On a non-empty timestamp-sorted store it
returns exactly the minimum stored timestamp, as the claim states. -/
theorem getEarliestTime_spec (orders : Book) :
    (getEarliestTime orders = none ↔ orders = []) ∧
    (orders.Pairwise tsLe → ∀ m,
      getEarliestTime orders = some m ↔
        (m ∈ timestamps orders ∧ ∀ u ∈ timestamps orders, strLe m u)) := by
  constructor
  · rw [getEarliestTime, Option.map_eq_none', List.head?_eq_none_iff]
  · intro hp m
    cases orders with
    | nil => simp [getEarliestTime, timestamps]
    | cons x l =>
      constructor
      · intro h
        have hm : m = x.timestamp := by
          rw [getEarliestTime] at h
          simp only [List.head?_cons, Option.map_some', Option.some.injEq] at h
          exact h.symm
        subst hm
        refine ⟨by rw [timestamps_cons]; exact List.mem_cons_self _ _, head_min hp⟩
      · rintro ⟨hmem, hmin⟩
        have hxm : strLe m x.timestamp :=
          hmin x.timestamp (by rw [timestamps_cons]; exact List.mem_cons_self _ _)
        have hmx : strLe x.timestamp m := head_min hp m hmem
        rw [getEarliestTime]
        simp only [List.head?_cons, Option.map_some', Option.some.injEq]
        exact strLe_antisymm hmx hxm

/-- Claim C6 witness: the earliest time of a concrete sorted store, and the
failing result on the empty store. -/
theorem getEarliestTime_spec_witness :
    getEarliestTime bkW = some "s" ∧ getEarliestTime [] = none :=
  ⟨((getEarliestTime_spec bkW).2 (by decide) "s").mpr (by decide),
   (getEarliestTime_spec []).1.mpr rfl⟩

/-- Claim C5: on a non-empty timestamp-sorted store, `getNextTime` returns the
smallest stored timestamp strictly greater than the argument and wraps to
`getEarliestTime` when no stored timestamp exceeds it; consequently, starting
from the earliest timestamp (position 0 of the deduplicated timeline) and
applying it repeatedly visits every distinct stored timestamp exactly once in
ascending order — position `i` is mapped to position `(i+1) mod n` — before
returning to the start. -/
theorem getNextTime_cycle (orders : Book) (_hne : orders ≠ [])
    (hp : orders.Pairwise tsLe) :
    (∀ t, (∃ u ∈ timestamps orders, strLt t u) →
      ∃ m, getNextTime t orders = some m ∧ m ∈ timestamps orders ∧ strLt t m ∧
        ∀ u ∈ timestamps orders, strLt t u → strLe m u) ∧
    (∀ t, (∀ u ∈ timestamps orders, strLe u t) →
      getNextTime t orders = getEarliestTime orders) ∧
    (∀ h0 : 0 < (timestamps orders).dedup.length,
      getEarliestTime orders = some ((timestamps orders).dedup.get ⟨0, h0⟩)) ∧
    (∀ i (h : i < (timestamps orders).dedup.length),
      getNextTime ((timestamps orders).dedup.get ⟨i, h⟩) orders =
        some ((timestamps orders).dedup.get
          ⟨(i + 1) % (timestamps orders).dedup.length,
            Nat.mod_lt _ (Nat.lt_of_le_of_lt (Nat.zero_le i) h)⟩)) := by
  have hts : (timestamps orders).Pairwise strLe := List.pairwise_map.mpr hp
  have hDle : (timestamps orders).dedup.Pairwise strLe :=
    List.Pairwise.sublist (List.dedup_sublist _) hts
  have hDlt : (timestamps orders).dedup.Pairwise strLt :=
    (hDle.and (List.nodup_dedup _)).imp (fun h => strLt_of_strLe_ne h.1 h.2)
  have part1 : ∀ t, (∃ u ∈ timestamps orders, strLt t u) →
      ∃ m, getNextTime t orders = some m ∧ m ∈ timestamps orders ∧ strLt t m ∧
        ∀ u ∈ timestamps orders, strLt t u → strLe m u := by
    intro t ⟨u0, hu0, htu0⟩
    cases hfind : orders.find? (fun e => decide (strLt t e.timestamp)) with
    | none =>
      exfalso
      obtain ⟨e0, he0, hts0⟩ := mem_timestamps.mp hu0
      subst hts0
      exact absurd htu0 (by simpa using List.find?_eq_none.mp hfind e0 he0)
    | some e =>
      obtain ⟨h1, h2, h3⟩ := find_next_spec hp hfind
      exact ⟨e.timestamp, by rw [getNextTime, hfind],
        mem_timestamps.mpr ⟨e, h2, rfl⟩, h1, h3⟩
  have part2 : ∀ t, (∀ u ∈ timestamps orders, strLe u t) →
      getNextTime t orders = getEarliestTime orders := by
    intro t hall
    have hnone : orders.find? (fun e => decide (strLt t e.timestamp)) = none :=
      List.find?_eq_none.mpr (fun x hx => by
        simpa using hall x.timestamp (mem_timestamps.mpr ⟨x, hx, rfl⟩))
    rw [getNextTime, hnone, getEarliestTime]
  refine ⟨part1, part2, earliest_eq_dedup_head orders hp, ?_⟩
  intro i h
  by_cases hi : i + 1 < (timestamps orders).dedup.length
  · have hfe : (⟨(i + 1) % (timestamps orders).dedup.length,
        Nat.mod_lt _ (Nat.lt_of_le_of_lt (Nat.zero_le i) h)⟩ :
          Fin (timestamps orders).dedup.length) = ⟨i + 1, hi⟩ :=
      Fin.ext (Nat.mod_eq_of_lt hi)
    rw [hfe]
    have hnext_mem : (timestamps orders).dedup.get ⟨i + 1, hi⟩ ∈ timestamps orders :=
      List.mem_dedup.mp (List.get_mem _ _ _)
    have htlt : strLt ((timestamps orders).dedup.get ⟨i, h⟩)
        ((timestamps orders).dedup.get ⟨i + 1, hi⟩) :=
      pairwise_get_lt hDlt _ _ (Nat.lt_succ_self i)
    obtain ⟨m, hm, hmmem, hmlt, hmmin⟩ :=
      part1 _ ⟨(timestamps orders).dedup.get ⟨i + 1, hi⟩, hnext_mem, htlt⟩
    rw [hm]
    congr 1
    obtain ⟨j, hj⟩ := List.mem_iff_get.mp (List.mem_dedup.mpr hmmem)
    have hij : (i : ℕ) < (j : ℕ) := by
      by_contra hcon
      have hle : strLe ((timestamps orders).dedup.get j)
          ((timestamps orders).dedup.get ⟨i, h⟩) :=
        pairwise_get_le hDle j ⟨i, h⟩ (Nat.not_lt.mp hcon)
      rw [hj] at hle
      exact hle hmlt
    have hge : strLe ((timestamps orders).dedup.get ⟨i + 1, hi⟩)
        ((timestamps orders).dedup.get j) :=
      pairwise_get_le hDle _ _ hij
    have hle : strLe m ((timestamps orders).dedup.get ⟨i + 1, hi⟩) :=
      hmmin _ hnext_mem htlt
    exact strLe_antisymm hle (hj ▸ hge)
  · have hlen : i + 1 = (timestamps orders).dedup.length :=
      Nat.le_antisymm (Nat.succ_le_of_lt h) (Nat.not_lt.mp hi)
    have h0 : 0 < (timestamps orders).dedup.length :=
      Nat.lt_of_le_of_lt (Nat.zero_le i) h
    have hfe : (⟨(i + 1) % (timestamps orders).dedup.length,
        Nat.mod_lt _ (Nat.lt_of_le_of_lt (Nat.zero_le i) h)⟩ :
          Fin (timestamps orders).dedup.length) = ⟨0, h0⟩ := by
      apply Fin.ext
      simp only [hlen, Nat.mod_self]
    rw [hfe]
    have hall : ∀ u ∈ timestamps orders, strLe u ((timestamps orders).dedup.get ⟨i, h⟩) := by
      intro u hu
      obtain ⟨j, hj⟩ := List.mem_iff_get.mp (List.mem_dedup.mpr hu)
      have hji : (j : ℕ) ≤ i := by
        have := j.isLt
        omega
      exact hj ▸ pairwise_get_le hDle j ⟨i, h⟩ hji
    rw [part2 _ hall]
    exact earliest_eq_dedup_head orders hp h0

/-- Claim C5 witness: on a concrete sorted store, moving past the last
timestamp wraps around to the earliest. -/
theorem getNextTime_cycle_witness : getNextTime "t" bkW = getEarliestTime bkW :=
  (getNextTime_cycle bkW (by decide) (by decide)).2.1 "t" (by decide)

/-! ### Candlestick analytics (C3, C4) -/

theorem foldl_max_spec (l : List OrderBookEntry) :
    ∀ init : ℚ,
      ((l.foldl (fun m x => if x.price > m then x.price else m) init = init) ∨
        l.foldl (fun m x => if x.price > m then x.price else m) init ∈
          l.map (fun e => e.price)) ∧
      init ≤ l.foldl (fun m x => if x.price > m then x.price else m) init ∧
      ∀ q ∈ l.map (fun e => e.price),
        q ≤ l.foldl (fun m x => if x.price > m then x.price else m) init := by
  induction l with
  | nil => exact fun init => ⟨Or.inl rfl, le_refl _, by simp⟩
  | cons x xs ih =>
    intro init
    rw [List.foldl_cons]
    by_cases hxp : x.price > init
    · rw [if_pos hxp]
      obtain ⟨hA, hB, hC⟩ := ih x.price
      refine ⟨?_, le_trans (le_of_lt hxp) hB, ?_⟩
      · rcases hA with hA | hA
        · exact Or.inr (by rw [hA, List.map_cons]; exact List.mem_cons_self _ _)
        · exact Or.inr (by rw [List.map_cons]; exact List.mem_cons_of_mem _ hA)
      · intro q hq
        rw [List.map_cons, List.mem_cons] at hq
        rcases hq with hq | hq
        · exact hq ▸ hB
        · exact hC q hq
    · rw [if_neg hxp]
      obtain ⟨hA, hB, hC⟩ := ih init
      refine ⟨?_, hB, ?_⟩
      · rcases hA with hA | hA
        · exact Or.inl hA
        · exact Or.inr (by rw [List.map_cons]; exact List.mem_cons_of_mem _ hA)
      · intro q hq
        rw [List.map_cons, List.mem_cons] at hq
        rcases hq with hq | hq
        · exact hq ▸ le_trans (le_of_not_lt hxp) hB
        · exact hC q hq

theorem foldl_min_spec (l : List OrderBookEntry) :
    ∀ init : ℚ,
      ((l.foldl (fun m x => if x.price < m then x.price else m) init = init) ∨
        l.foldl (fun m x => if x.price < m then x.price else m) init ∈
          l.map (fun e => e.price)) ∧
      l.foldl (fun m x => if x.price < m then x.price else m) init ≤ init ∧
      ∀ q ∈ l.map (fun e => e.price),
        l.foldl (fun m x => if x.price < m then x.price else m) init ≤ q := by
  induction l with
  | nil => exact fun init => ⟨Or.inl rfl, le_refl _, by simp⟩
  | cons x xs ih =>
    intro init
    rw [List.foldl_cons]
    by_cases hxp : x.price < init
    · rw [if_pos hxp]
      obtain ⟨hA, hB, hC⟩ := ih x.price
      refine ⟨?_, le_trans hB (le_of_lt hxp), ?_⟩
      · rcases hA with hA | hA
        · exact Or.inr (by rw [hA, List.map_cons]; exact List.mem_cons_self _ _)
        · exact Or.inr (by rw [List.map_cons]; exact List.mem_cons_of_mem _ hA)
      · intro q hq
        rw [List.map_cons, List.mem_cons] at hq
        rcases hq with hq | hq
        · exact hq ▸ hB
        · exact hC q hq
    · rw [if_neg hxp]
      obtain ⟨hA, hB, hC⟩ := ih init
      refine ⟨?_, hB, ?_⟩
      · rcases hA with hA | hA
        · exact Or.inl hA
        · exact Or.inr (by rw [List.map_cons]; exact List.mem_cons_of_mem _ hA)
      · intro q hq
        rw [List.map_cons, List.mem_cons] at hq
        rcases hq with hq | hq
        · exact hq ▸ le_trans hB (le_of_not_lt hxp)
        · exact hC q hq

theorem getHighPrice_spec {es : List OrderBookEntry} (hne : es ≠ []) :
    getHighPrice es ∈ es.map (fun e => e.price) ∧
    ∀ q ∈ es.map (fun e => e.price), q ≤ getHighPrice es := by
  cases es with
  | nil => exact absurd rfl hne
  | cons e rest =>
    obtain ⟨hA, _, hC⟩ := foldl_max_spec (e :: rest) e.price
    rw [getHighPrice]
    refine ⟨?_, hC⟩
    rcases hA with hA | hA
    · rw [hA, List.map_cons]
      exact List.mem_cons_self _ _
    · exact hA

theorem getLowPrice_spec {es : List OrderBookEntry} (hne : es ≠ []) :
    getLowPrice es ∈ es.map (fun e => e.price) ∧
    ∀ q ∈ es.map (fun e => e.price), getLowPrice es ≤ q := by
  cases es with
  | nil => exact absurd rfl hne
  | cons e rest =>
    obtain ⟨hA, _, hC⟩ := foldl_min_spec (e :: rest) e.price
    rw [getLowPrice]
    refine ⟨?_, hC⟩
    rcases hA with hA | hA
    · rw [hA, List.map_cons]
      exact List.mem_cons_self _ _
    · exact hA

theorem totAmt_cons {x : OrderBookEntry} {xs : List OrderBookEntry} :
    totAmt (x :: xs) = x.amount + totAmt xs := by
  simp [totAmt]

theorem totVal_cons {x : OrderBookEntry} {xs : List OrderBookEntry} :
    totVal (x :: xs) = x.price * x.amount + totVal xs := by
  simp [totVal]

theorem totAmt_nonneg {es : List OrderBookEntry}
    (h : ∀ e ∈ es, 0 ≤ e.amount) : 0 ≤ totAmt es := by
  induction es with
  | nil => simp [totAmt]
  | cons x xs ih =>
    rw [totAmt_cons]
    have h1 := h x (List.mem_cons_self _ _)
    have h2 := ih (fun e he => h e (List.mem_cons_of_mem _ he))
    linarith

theorem totAmt_pos {es : List OrderBookEntry} (hne : es ≠ [])
    (h : ∀ e ∈ es, 0 < e.amount) : 0 < totAmt es := by
  cases es with
  | nil => exact absurd rfl hne
  | cons x xs =>
    rw [totAmt_cons]
    have h1 := h x (List.mem_cons_self _ _)
    have h2 := totAmt_nonneg (fun e he => le_of_lt (h e (List.mem_cons_of_mem _ he)))
    linarith

theorem totVal_le_mul {es : List OrderBookEntry} (hi : ℚ)
    (hhi : ∀ e ∈ es, e.price ≤ hi) (hamt : ∀ e ∈ es, 0 ≤ e.amount) :
    totVal es ≤ hi * totAmt es := by
  induction es with
  | nil => simp [totVal, totAmt]
  | cons x xs ih =>
    rw [totVal_cons, totAmt_cons, mul_add]
    have h1 : x.price * x.amount ≤ hi * x.amount :=
      mul_le_mul_of_nonneg_right (hhi x (List.mem_cons_self _ _))
        (hamt x (List.mem_cons_self _ _))
    have h2 := ih (fun e he => hhi e (List.mem_cons_of_mem _ he))
      (fun e he => hamt e (List.mem_cons_of_mem _ he))
    linarith

theorem mul_le_totVal {es : List OrderBookEntry} (lo : ℚ)
    (hlo : ∀ e ∈ es, lo ≤ e.price) (hamt : ∀ e ∈ es, 0 ≤ e.amount) :
    lo * totAmt es ≤ totVal es := by
  induction es with
  | nil => simp [totVal, totAmt]
  | cons x xs ih =>
    rw [totVal_cons, totAmt_cons, mul_add]
    have h1 : lo * x.amount ≤ x.price * x.amount :=
      mul_le_mul_of_nonneg_right (hlo x (List.mem_cons_self _ _))
        (hamt x (List.mem_cons_self _ _))
    have h2 := ih (fun e he => hlo e (List.mem_cons_of_mem _ he))
      (fun e he => hamt e (List.mem_cons_of_mem _ he))
    linarith

theorem vwap_bounds {es : List OrderBookEntry} (hne : es ≠ [])
    (hpos : ∀ e ∈ es, 0 < e.amount) (lo hi : ℚ)
    (hlo : ∀ e ∈ es, lo ≤ e.price) (hhi : ∀ e ∈ es, e.price ≤ hi) :
    lo ≤ totVal es / totAmt es ∧ totVal es / totAmt es ≤ hi := by
  have hA := totAmt_pos hne hpos
  have hnn : ∀ e ∈ es, 0 ≤ e.amount := fun e he => le_of_lt (hpos e he)
  constructor
  · rw [le_div_iff₀ hA]
    exact mul_le_totVal lo hlo hnn
  · rw [div_le_iff₀ hA]
    exact totVal_le_mul hi hhi hnn

theorem buildCandles_timestamps (side : OrderBookType) (product : String) (orders : Book) :
    ∀ (times : List String) (isFirst : Bool) (pc : ℚ),
      (buildCandles side product orders times isFirst pc).map Candlestick.timestamp
        = times.filter (fun ts => !(getOrders side product ts orders).isEmpty) := by
  intro times
  induction times with
  | nil => intro _ _; rfl
  | cons ts rest ih =>
    intro isFirst pc
    simp only [buildCandles]
    by_cases h : (getOrders side product ts orders).isEmpty
    · rw [if_pos h, List.filter_cons, if_neg (by simp [h]), ih]
    · have hb : (getOrders side product ts orders).isEmpty = false := by
        revert h
        cases (getOrders side product ts orders).isEmpty <;> simp
      rw [if_neg h, List.map_cons, ih, List.filter_cons, hb]
      rfl

theorem buildCandles_fields (side : OrderBookType) (product : String) (orders : Book) :
    ∀ (times : List String) (isFirst : Bool) (pc : ℚ) (c : Candlestick),
      c ∈ buildCandles side product orders times isFirst pc →
        getOrders side product c.timestamp orders ≠ [] ∧
        c.high = getHighPrice (getOrders side product c.timestamp orders) ∧
        c.low = getLowPrice (getOrders side product c.timestamp orders) ∧
        c.close = totVal (getOrders side product c.timestamp orders) /
                  totAmt (getOrders side product c.timestamp orders) := by
  intro times
  induction times with
  | nil =>
    intro _ _ c hc
    simp [buildCandles] at hc
  | cons ts rest ih =>
    intro isFirst pc c hc
    simp only [buildCandles] at hc
    by_cases h : (getOrders side product ts orders).isEmpty
    · rw [if_pos h] at hc
      exact ih _ _ c hc
    · rw [if_neg h] at hc
      rcases List.mem_cons.mp hc with hc | hc
      · subst hc
        exact ⟨fun hnil => h (by rw [hnil]; rfl), rfl, rfl, rfl⟩
      · exact ih _ _ c hc

theorem buildCandles_chain (side : OrderBookType) (product : String) (orders : Book) :
    ∀ (times : List String) (isFirst : Bool) (pc : ℚ),
      (∀ c, (buildCandles side product orders times isFirst pc).head? = some c →
        c.openPrice = if isFirst then c.close else pc) ∧
      (∀ i c1 c2,
        (buildCandles side product orders times isFirst pc).get? i = some c1 →
        (buildCandles side product orders times isFirst pc).get? (i + 1) = some c2 →
        c2.openPrice = c1.close) := by
  intro times
  induction times with
  | nil =>
    intro isFirst pc
    constructor
    · intro c hc
      simp [buildCandles] at hc
    · intro i c1 c2 h1 _
      simp [buildCandles] at h1
  | cons ts rest ih =>
    intro isFirst pc
    by_cases h : (getOrders side product ts orders).isEmpty
    · constructor
      · intro c hc
        simp only [buildCandles, if_pos h] at hc
        exact (ih isFirst pc).1 c hc
      · intro i c1 c2 h1 h2
        simp only [buildCandles, if_pos h] at h1 h2
        exact (ih isFirst pc).2 i c1 c2 h1 h2
    · constructor
      · intro c hc
        simp only [buildCandles, if_neg h, List.head?_cons, Option.some.injEq] at hc
        subst hc
        cases isFirst <;> rfl
      · intro i c1 c2 h1 h2
        simp only [buildCandles, if_neg h] at h1 h2
        cases i with
        | zero =>
          rw [List.get?_cons_zero, Option.some.injEq] at h1
          subst h1
          rw [List.get?_cons_succ, List.get?_zero] at h2
          have hh := (ih false (totVal (getOrders side product ts orders) /
            totAmt (getOrders side product ts orders))).1 c2 h2
          simpa using hh
        | succ n =>
          rw [List.get?_cons_succ] at h1 h2
          exact (ih false _).2 n c1 c2 h1 h2

/-- Claim C3 counterexample: the timeline is file-derived, not store-derived.
A store holding a matching order at timestamp "s" produces NO candle when the
CSV files contain no entries, even though "s" is in the store's own
distinct-timestamp timeline — so `candlesticks` does not iterate the store's
distinct timestamps. -/
theorem getCandlestickData_not_store_timeline :
    getCandlestickData OrderBookType.ask "P"
        [⟨5, 2, "s", "P", OrderBookType.ask, "dataset"⟩] [] = [] ∧
    getOrders OrderBookType.ask "P" "s"
        [⟨5, 2, "s", "P", OrderBookType.ask, "dataset"⟩] ≠ [] ∧
    (timestamps [⟨5, 2, "s", "P", OrderBookType.ask, "dataset"⟩]).dedup = ["s"] := by
  refine ⟨rfl, ?_, by decide⟩
  with_unfolding_all decide

/-- Claim C3 (amended): the candlestick series iterates the FILE-derived
global timeline — the sorted deduplicated timestamps of the entries read from
the hardcoded CSV files, independent of the store's contents — in ascending
order, emitting exactly one candle per timeline timestamp with matching
(side, product) orders and none for the rest (the emitted timestamp sequence
is the filtered timeline, strictly ascending); each candle's high is the
maximum price among the matching orders, its low the minimum, its close the
VWAP `totVal/totAmt`, its open the previous emitted candle's close, and the
first candle's open its own close. -/
theorem getCandlestickData_spec (side : OrderBookType) (product : String)
    (orders : Book) (csvEntries : List OrderBookEntry) :
    ((getCandlestickData side product orders csvEntries).map Candlestick.timestamp
      = (getAllTimestamps csvEntries).filter
          (fun ts => !(getOrders side product ts orders).isEmpty)) ∧
    ((getCandlestickData side product orders csvEntries).map
      Candlestick.timestamp).Pairwise strLt ∧
    (∀ c ∈ getCandlestickData side product orders csvEntries,
      getOrders side product c.timestamp orders ≠ [] ∧
      c.high ∈ (getOrders side product c.timestamp orders).map (fun e => e.price) ∧
      (∀ q ∈ (getOrders side product c.timestamp orders).map (fun e => e.price),
        q ≤ c.high) ∧
      c.low ∈ (getOrders side product c.timestamp orders).map (fun e => e.price) ∧
      (∀ q ∈ (getOrders side product c.timestamp orders).map (fun e => e.price),
        c.low ≤ q) ∧
      c.close = totVal (getOrders side product c.timestamp orders) /
                totAmt (getOrders side product c.timestamp orders)) ∧
    (∀ c, (getCandlestickData side product orders csvEntries).head? = some c →
      c.openPrice = c.close) ∧
    (∀ i c1 c2,
      (getCandlestickData side product orders csvEntries).get? i = some c1 →
      (getCandlestickData side product orders csvEntries).get? (i + 1) = some c2 →
      c2.openPrice = c1.close) := by
  have htl := buildCandles_timestamps side product orders
    (getAllTimestamps csvEntries) true 0
  refine ⟨htl, ?_, ?_, ?_, ?_⟩
  · rw [getCandlestickData, htl]
    exact List.Pairwise.filter _
      (foldl_insertKey_sorted (fun e => e.timestamp) csvEntries [] List.Pairwise.nil)
  · intro c hc
    obtain ⟨hne2, hhigh, hlow, hclose⟩ :=
      buildCandles_fields side product orders _ _ _ c hc
    obtain ⟨hmemH, hboundH⟩ := getHighPrice_spec hne2
    obtain ⟨hmemL, hboundL⟩ := getLowPrice_spec hne2
    rw [hhigh, hlow]
    exact ⟨hne2, hmemH, hboundH, hmemL, hboundL, hclose⟩
  · intro c hc
    have hh := (buildCandles_chain side product orders
      (getAllTimestamps csvEntries) true 0).1 c hc
    simpa using hh
  · exact (buildCandles_chain side product orders (getAllTimestamps csvEntries) true 0).2

/-- Claim C3 witness: with the store loaded from the same file data (as the
program's constructor does), two candles are emitted and the second candle's
open equals the first candle's close. -/
theorem getCandlestickData_spec_witness :
    (⟨"t", 1, 2, 2, 2⟩ : Candlestick).openPrice = (⟨"s", 1, 1, 1, 1⟩ : Candlestick).close :=
  (getCandlestickData_spec OrderBookType.ask "P" bkW bkW).2.2.2.2 0
    ⟨"s", 1, 1, 1, 1⟩ ⟨"t", 1, 2, 2, 2⟩
    (by with_unfolding_all decide) (by with_unfolding_all decide)

/-- Claim C4: on a store whose records carry positive amounts, every candle
emitted for any CSV-file timeline has its VWAP close between its low and its
high. -/
theorem getCandlestickData_close_bounded (side : OrderBookType) (product : String)
    (orders : Book) (csvEntries : List OrderBookEntry)
    (hpos : ∀ e ∈ orders, 0 < e.amount) :
    ∀ c ∈ getCandlestickData side product orders csvEntries,
      c.low ≤ c.close ∧ c.close ≤ c.high := by
  intro c hc
  obtain ⟨hne2, hhigh, hlow, hclose⟩ :=
    buildCandles_fields side product orders _ _ _ c hc
  have hposes : ∀ e ∈ getOrders side product c.timestamp orders, 0 < e.amount :=
    fun e he => hpos e (List.mem_filter.mp he).1
  obtain ⟨hmemH, hboundH⟩ := getHighPrice_spec hne2
  obtain ⟨hmemL, hboundL⟩ := getLowPrice_spec hne2
  have hhi : ∀ e ∈ getOrders side product c.timestamp orders,
      e.price ≤ getHighPrice (getOrders side product c.timestamp orders) :=
    fun e he => hboundH _ (List.mem_map_of_mem _ he)
  have hlo : ∀ e ∈ getOrders side product c.timestamp orders,
      getLowPrice (getOrders side product c.timestamp orders) ≤ e.price :=
    fun e he => hboundL _ (List.mem_map_of_mem _ he)
  obtain ⟨h1, h2⟩ := vwap_bounds hne2 hposes _ _ hlo hhi
  rw [hclose, hlow, hhigh]
  exact ⟨h1, h2⟩

/-- Claim C4 witness: evaluated on a concrete candle of a concrete store and
file timeline. -/
theorem getCandlestickData_close_bounded_witness :
    (⟨"s", 1, 1, 1, 1⟩ : Candlestick).low ≤ (⟨"s", 1, 1, 1, 1⟩ : Candlestick).close ∧
    (⟨"s", 1, 1, 1, 1⟩ : Candlestick).close ≤ (⟨"s", 1, 1, 1, 1⟩ : Candlestick).high :=
  getCandlestickData_close_bounded OrderBookType.ask "P" bkW bkW (by decide)
    ⟨"s", 1, 1, 1, 1⟩ (by with_unfolding_all decide)

/-! ### Matching engine (C1, C2, C8, C10) -/

theorem mkSale_price (p t : String) (a b : OrderBookEntry) :
    (mkSale p t a b).price = a.price := by
  simp only [mkSale]
  split <;> split <;> rfl

theorem matchLoop_nil (p t : String) (a : OrderBookEntry) :
    matchLoop p t a [] = ([], []) := rfl

theorem matchLoop_cons_eq (p t : String) (a b : OrderBookEntry)
    (rest : List OrderBookEntry) (h1 : b.price ≥ a.price) (h2 : b.amount = a.amount) :
    matchLoop p t a (b :: rest) =
      ([{ mkSale p t a b with amount := a.amount }],
        { b with amount := 0 } :: rest) := by
  simp only [matchLoop, if_pos h1, if_pos h2]

theorem matchLoop_cons_gt (p t : String) (a b : OrderBookEntry)
    (rest : List OrderBookEntry) (h1 : b.price ≥ a.price)
    (h2 : ¬ b.amount = a.amount) (h3 : b.amount > a.amount) :
    matchLoop p t a (b :: rest) =
      ([{ mkSale p t a b with amount := a.amount }],
        { b with amount := b.amount - a.amount } :: rest) := by
  simp only [matchLoop, if_pos h1, if_neg h2, if_pos h3]

theorem matchLoop_cons_lt_pos (p t : String) (a b : OrderBookEntry)
    (rest : List OrderBookEntry) (h1 : b.price ≥ a.price)
    (h2 : ¬ b.amount = a.amount) (h3 : ¬ b.amount > a.amount) (h4 : b.amount > 0) :
    matchLoop p t a (b :: rest) =
      ({ mkSale p t a b with amount := b.amount } ::
          (matchLoop p t { a with amount := a.amount - b.amount } rest).1,
        { b with amount := 0 } ::
          (matchLoop p t { a with amount := a.amount - b.amount } rest).2) := by
  simp only [matchLoop, if_pos h1, if_neg h2, if_neg h3, if_pos h4]

theorem matchLoop_cons_lt_zero (p t : String) (a b : OrderBookEntry)
    (rest : List OrderBookEntry) (h1 : b.price ≥ a.price)
    (h2 : ¬ b.amount = a.amount) (h3 : ¬ b.amount > a.amount) (h4 : ¬ b.amount > 0) :
    matchLoop p t a (b :: rest) =
      ((matchLoop p t a rest).1, b :: (matchLoop p t a rest).2) := by
  simp only [matchLoop, if_pos h1, if_neg h2, if_neg h3, if_neg h4]

theorem matchLoop_cons_nocross (p t : String) (a b : OrderBookEntry)
    (rest : List OrderBookEntry) (h1 : ¬ b.price ≥ a.price) :
    matchLoop p t a (b :: rest) =
      ((matchLoop p t a rest).1, b :: (matchLoop p t a rest).2) := by
  simp only [matchLoop, if_neg h1]

theorem matchAll_nil (p t : String) (bids : List OrderBookEntry) :
    matchAll p t [] bids = [] := rfl

theorem matchAll_cons (p t : String) (a : OrderBookEntry)
    (as bids : List OrderBookEntry) :
    matchAll p t (a :: as) bids =
      (matchLoop p t a bids).1 ++ matchAll p t as (matchLoop p t a bids).2 := by
  simp only [matchAll]

theorem matchLoop_prices (p t : String) :
    ∀ (a : OrderBookEntry) (bids : List OrderBookEntry),
      ((matchLoop p t a bids).2).map (fun e => e.price) =
        bids.map (fun e => e.price) := by
  intro a bids
  induction bids generalizing a with
  | nil => rfl
  | cons b rest ih =>
    by_cases h1 : b.price ≥ a.price
    · by_cases h2 : b.amount = a.amount
      · rw [matchLoop_cons_eq p t a b rest h1 h2]
        simp
      · by_cases h3 : b.amount > a.amount
        · rw [matchLoop_cons_gt p t a b rest h1 h2 h3]
          simp
        · by_cases h4 : b.amount > 0
          · rw [matchLoop_cons_lt_pos p t a b rest h1 h2 h3 h4]
            simp only [List.map_cons]
            rw [ih]
          · rw [matchLoop_cons_lt_zero p t a b rest h1 h2 h3 h4]
            simp only [List.map_cons]
            rw [ih]
    · rw [matchLoop_cons_nocross p t a b rest h1]
      simp only [List.map_cons]
      rw [ih]

theorem matchLoop_sales_price (p t : String) :
    ∀ (a : OrderBookEntry) (bids : List OrderBookEntry),
      ∀ s ∈ (matchLoop p t a bids).1,
        s.price = a.price ∧ ∃ d ∈ bids, a.price ≤ d.price := by
  intro a bids
  induction bids generalizing a with
  | nil =>
    intro s hs
    simp [matchLoop_nil] at hs
  | cons b rest ih =>
    intro s hs
    by_cases h1 : b.price ≥ a.price
    · by_cases h2 : b.amount = a.amount
      · rw [matchLoop_cons_eq p t a b rest h1 h2, List.mem_singleton] at hs
        subst hs
        exact ⟨mkSale_price p t a b, b, List.mem_cons_self _ _, h1⟩
      · by_cases h3 : b.amount > a.amount
        · rw [matchLoop_cons_gt p t a b rest h1 h2 h3, List.mem_singleton] at hs
          subst hs
          exact ⟨mkSale_price p t a b, b, List.mem_cons_self _ _, h1⟩
        · by_cases h4 : b.amount > 0
          · rw [matchLoop_cons_lt_pos p t a b rest h1 h2 h3 h4] at hs
            rcases List.mem_cons.mp hs with hs | hs
            · subst hs
              exact ⟨mkSale_price p t a b, b, List.mem_cons_self _ _, h1⟩
            · obtain ⟨hp, d, hd, hpd⟩ := ih _ s hs
              exact ⟨hp, d, List.mem_cons_of_mem _ hd, hpd⟩
          · rw [matchLoop_cons_lt_zero p t a b rest h1 h2 h3 h4] at hs
            obtain ⟨hp, d, hd, hpd⟩ := ih _ s hs
            exact ⟨hp, d, List.mem_cons_of_mem _ hd, hpd⟩
    · rw [matchLoop_cons_nocross p t a b rest h1] at hs
      obtain ⟨hp, d, hd, hpd⟩ := ih _ s hs
      exact ⟨hp, d, List.mem_cons_of_mem _ hd, hpd⟩

theorem matchAll_sales_price (p t : String) :
    ∀ (asks bids : List OrderBookEntry),
      ∀ s ∈ matchAll p t asks bids,
        ∃ a ∈ asks, s.price = a.price ∧ ∃ d ∈ bids, a.price ≤ d.price := by
  intro asks
  induction asks with
  | nil =>
    intro bids s hs
    simp [matchAll_nil] at hs
  | cons a as ih =>
    intro bids s hs
    rw [matchAll_cons, List.mem_append] at hs
    rcases hs with hs | hs
    · obtain ⟨hp, d, hd, hpd⟩ := matchLoop_sales_price p t a bids s hs
      exact ⟨a, List.mem_cons_self _ _, hp, d, hd, hpd⟩
    · obtain ⟨a1, ha1, hp, d, hd, hpd⟩ := ih _ s hs
      have hdp : d.price ∈ bids.map (fun e => e.price) := by
        rw [← matchLoop_prices p t a bids]
        exact List.mem_map_of_mem _ hd
      obtain ⟨d0, hd0, hd0p⟩ := List.mem_map.mp hdp
      refine ⟨a1, List.mem_cons_of_mem _ ha1, hp, d0, hd0, ?_⟩
      rw [hd0p]
      exact hpd

/-- The two shapes `matchAsksToBids` can take: empty result on an empty side,
otherwise the nested matching loops on the price-sorted queried orders. -/
theorem matchAsksToBids_eq (product timestamp : String) (orders : Book) :
    (matchAsksToBids product timestamp orders = [] ∧
      ((getOrders OrderBookType.ask product timestamp orders).isEmpty = true ∨
       (getOrders OrderBookType.bid product timestamp orders).isEmpty = true)) ∨
    matchAsksToBids product timestamp orders =
      matchAll product timestamp
        ((getOrders OrderBookType.ask product timestamp orders).insertionSort
          compareByPriceAsc)
        ((getOrders OrderBookType.bid product timestamp orders).insertionSort
          compareByPriceDesc) := by
  by_cases hemp : (getOrders OrderBookType.ask product timestamp orders).isEmpty = true ∨
      (getOrders OrderBookType.bid product timestamp orders).isEmpty = true
  · left
    refine ⟨?_, hemp⟩
    simp only [matchAsksToBids, matchAsksToBidsS]
    rw [if_pos hemp]
  · right
    simp only [matchAsksToBids, matchAsksToBidsS]
    rw [if_neg hemp]

/-- Claim C1: every trade returned by `matchAsksToBids` has the price of some
queried ask, and arises from an ask/bid pair whose bid price is at least the
ask price (no trade is generated when `bid.price < ask.price`). -/
theorem matchAsksToBids_price_priority (product timestamp : String) (orders : Book) :
    ∀ s ∈ matchAsksToBids product timestamp orders,
      ∃ a ∈ getOrders OrderBookType.ask product timestamp orders,
        s.price = a.price ∧
        ∃ d ∈ getOrders OrderBookType.bid product timestamp orders,
          a.price ≤ d.price := by
  intro s hs
  rcases matchAsksToBids_eq product timestamp orders with ⟨hz, _⟩ | hm
  · rw [hz] at hs
    simp at hs
  · rw [hm] at hs
    obtain ⟨a, ha, hp, d, hd, hpd⟩ := matchAll_sales_price product timestamp _ _ s hs
    exact ⟨a, (List.perm_insertionSort compareByPriceAsc _).mem_iff.mp ha, hp,
      d, (List.perm_insertionSort compareByPriceDesc _).mem_iff.mp hd, hpd⟩

/-- The round-trip example store: one ask at 100 (amount 1) and one bid at 105
(amount 2) at the same product and timestamp. -/
def bookRT : Book :=
  [⟨100, 1, "u", "ETH/BTC", OrderBookType.ask, "dataset"⟩,
   ⟨105, 2, "u", "ETH/BTC", OrderBookType.bid, "dataset"⟩]

/-- Claim C1 witness: the trade generated on the round-trip example has the
ask's price, against a bid priced at least as high. -/
theorem matchAsksToBids_price_priority_witness :
    ∃ a ∈ getOrders OrderBookType.ask "ETH/BTC" "u" bookRT,
      (⟨100, 1, "u", "ETH/BTC", OrderBookType.asksale, "dataset"⟩ :
        OrderBookEntry).price = a.price ∧
      ∃ d ∈ getOrders OrderBookType.bid "ETH/BTC" "u" bookRT, a.price ≤ d.price :=
  matchAsksToBids_price_priority "ETH/BTC" "u" bookRT
    ⟨100, 1, "u", "ETH/BTC", OrderBookType.asksale, "dataset"⟩
    (by with_unfolding_all decide)

/-- A store holding an ask and a bid at the same (product, timestamp) with
crossing prices and both amounts zero. -/
def book10 : Book :=
  [⟨5, 0, "t", "P", OrderBookType.ask, "dataset"⟩,
   ⟨6, 0, "t", "P", OrderBookType.bid, "dataset"⟩]

/-- Claim C10: on a store with a crossing ask/bid pair of amount 0, the match
call emits one trade record with amount 0 — zero-quantity trades are not
filtered out. -/
theorem matchAsksToBids_zero_amount :
    matchAsksToBids "P" "t" book10 =
      [⟨5, 0, "t", "P", OrderBookType.asksale, "dataset"⟩] := by
  with_unfolding_all decide

/-- Claim C8: `matchAsksToBids` leaves the order store unchanged: the store
component returned by the state-passing form is the input store (so every
stored record keeps all its fields, none is added or removed), and the sales
are computed only from the copies `getOrders` produced. -/
theorem matchAsksToBids_frame (product timestamp : String) (orders : Book) :
    (matchAsksToBidsS product timestamp orders).2 = orders ∧
    (∀ e : OrderBookEntry,
      ((matchAsksToBidsS product timestamp orders).2).count e = orders.count e) ∧
    (matchAsksToBidsS product timestamp orders).1 =
      matchAsksToBids product timestamp orders := by
  have h2 : (matchAsksToBidsS product timestamp orders).2 = orders := by
    simp only [matchAsksToBidsS]
    split <;> rfl
  exact ⟨h2, fun e => by rw [h2], rfl⟩

theorem sumAmt_nil : sumAmt [] = 0 := rfl

theorem sumAmt_cons {x : OrderBookEntry} {xs : List OrderBookEntry} :
    sumAmt (x :: xs) = x.amount + sumAmt xs := by
  simp [sumAmt]

theorem sumAmt_append (l1 l2 : List OrderBookEntry) :
    sumAmt (l1 ++ l2) = sumAmt l1 + sumAmt l2 := by
  simp [sumAmt]

theorem sumAmt_nonneg {l : List OrderBookEntry}
    (h : ∀ x ∈ l, 0 ≤ x.amount) : 0 ≤ sumAmt l := by
  induction l with
  | nil => simp [sumAmt]
  | cons x xs ih =>
    rw [sumAmt_cons]
    have h1 := h x (List.mem_cons_self _ _)
    have h2 := ih (fun e he => h e (List.mem_cons_of_mem _ he))
    linarith

theorem sumAmt_perm {l1 l2 : List OrderBookEntry} (h : l1.Perm l2) :
    sumAmt l1 = sumAmt l2 := by
  simp only [sumAmt]
  exact (h.map (fun e => e.amount)).sum_eq

theorem matchLoop_conservation (p t : String) :
    ∀ (a : OrderBookEntry) (bids : List OrderBookEntry),
      sumAmt (matchLoop p t a bids).1 + sumAmt (matchLoop p t a bids).2 =
        sumAmt bids := by
  intro a bids
  induction bids generalizing a with
  | nil => simp [matchLoop_nil, sumAmt_nil]
  | cons b rest ih =>
    by_cases h1 : b.price ≥ a.price
    · by_cases h2 : b.amount = a.amount
      · rw [matchLoop_cons_eq p t a b rest h1 h2]
        simp only [sumAmt_cons, sumAmt_nil]
        rw [← h2]
        ring
      · by_cases h3 : b.amount > a.amount
        · rw [matchLoop_cons_gt p t a b rest h1 h2 h3]
          simp only [sumAmt_cons, sumAmt_nil]
          ring
        · by_cases h4 : b.amount > 0
          · rw [matchLoop_cons_lt_pos p t a b rest h1 h2 h3 h4]
            simp only [sumAmt_cons]
            have := ih { a with amount := a.amount - b.amount }
            linarith
          · rw [matchLoop_cons_lt_zero p t a b rest h1 h2 h3 h4]
            simp only [sumAmt_cons]
            have := ih a
            linarith
    · rw [matchLoop_cons_nocross p t a b rest h1]
      simp only [sumAmt_cons]
      have := ih a
      linarith

theorem matchLoop_bids_nonneg (p t : String) :
    ∀ (a : OrderBookEntry) (bids : List OrderBookEntry),
      (∀ x ∈ bids, 0 ≤ x.amount) →
      ∀ x ∈ (matchLoop p t a bids).2, 0 ≤ x.amount := by
  intro a bids
  induction bids generalizing a with
  | nil =>
    intro _ x hx
    simp [matchLoop_nil] at hx
  | cons b rest ih =>
    intro hb x hx
    have hbrest : ∀ y ∈ rest, 0 ≤ y.amount :=
      fun y hy => hb y (List.mem_cons_of_mem _ hy)
    by_cases h1 : b.price ≥ a.price
    · by_cases h2 : b.amount = a.amount
      · rw [matchLoop_cons_eq p t a b rest h1 h2] at hx
        rcases List.mem_cons.mp hx with hx | hx
        · rw [hx]
        · exact hbrest x hx
      · by_cases h3 : b.amount > a.amount
        · rw [matchLoop_cons_gt p t a b rest h1 h2 h3] at hx
          rcases List.mem_cons.mp hx with hx | hx
          · rw [hx]
            simp only
            linarith
          · exact hbrest x hx
        · by_cases h4 : b.amount > 0
          · rw [matchLoop_cons_lt_pos p t a b rest h1 h2 h3 h4] at hx
            rcases List.mem_cons.mp hx with hx | hx
            · rw [hx]
            · exact ih _ hbrest x hx
          · rw [matchLoop_cons_lt_zero p t a b rest h1 h2 h3 h4] at hx
            rcases List.mem_cons.mp hx with hx | hx
            · exact hx ▸ hb b (List.mem_cons_self _ _)
            · exact ih _ hbrest x hx
    · rw [matchLoop_cons_nocross p t a b rest h1] at hx
      rcases List.mem_cons.mp hx with hx | hx
      · exact hx ▸ hb b (List.mem_cons_self _ _)
      · exact ih _ hbrest x hx

theorem matchLoop_sales_le_askAmt (p t : String) :
    ∀ (a : OrderBookEntry) (bids : List OrderBookEntry), 0 ≤ a.amount →
      sumAmt (matchLoop p t a bids).1 ≤ a.amount := by
  intro a bids
  induction bids generalizing a with
  | nil =>
    intro ha
    simpa [matchLoop_nil, sumAmt_nil] using ha
  | cons b rest ih =>
    intro ha
    by_cases h1 : b.price ≥ a.price
    · by_cases h2 : b.amount = a.amount
      · rw [matchLoop_cons_eq p t a b rest h1 h2]
        simp [sumAmt_cons, sumAmt_nil]
      · by_cases h3 : b.amount > a.amount
        · rw [matchLoop_cons_gt p t a b rest h1 h2 h3]
          simp [sumAmt_cons, sumAmt_nil]
        · by_cases h4 : b.amount > 0
          · rw [matchLoop_cons_lt_pos p t a b rest h1 h2 h3 h4]
            rw [sumAmt_cons]
            have hba : b.amount ≤ a.amount := le_of_not_lt h3
            have := ih { a with amount := a.amount - b.amount } (by simp only; linarith)
            simp only at this
            linarith
          · rw [matchLoop_cons_lt_zero p t a b rest h1 h2 h3 h4]
            exact ih a ha
    · rw [matchLoop_cons_nocross p t a b rest h1]
      exact ih a ha

theorem matchLoop_sales_cross (p t : String) :
    ∀ (a : OrderBookEntry) (bids : List OrderBookEntry), 0 ≤ a.amount →
      (∀ x ∈ bids, 0 ≤ x.amount) → (∀ x ∈ bids, a.price ≤ x.price) →
      sumAmt (matchLoop p t a bids).1 = min a.amount (sumAmt bids) := by
  intro a bids
  induction bids generalizing a with
  | nil =>
    intro ha _ _
    rw [matchLoop_nil]
    simp only [sumAmt_nil]
    exact (min_eq_right ha).symm
  | cons b rest ih =>
    intro ha hb hcross
    have h1 : b.price ≥ a.price := hcross b (List.mem_cons_self _ _)
    have hbrest : ∀ y ∈ rest, 0 ≤ y.amount :=
      fun y hy => hb y (List.mem_cons_of_mem _ hy)
    have hcrest : ∀ y ∈ rest, a.price ≤ y.price :=
      fun y hy => hcross y (List.mem_cons_of_mem _ hy)
    have hS : 0 ≤ sumAmt rest := sumAmt_nonneg hbrest
    by_cases h2 : b.amount = a.amount
    · rw [matchLoop_cons_eq p t a b rest h1 h2]
      simp only [sumAmt_cons, sumAmt_nil, add_zero]
      exact (min_eq_left (by linarith [h2.ge])).symm
    · by_cases h3 : b.amount > a.amount
      · rw [matchLoop_cons_gt p t a b rest h1 h2 h3]
        simp only [sumAmt_cons, sumAmt_nil, add_zero]
        exact (min_eq_left (by linarith)).symm
      · by_cases h4 : b.amount > 0
        · rw [matchLoop_cons_lt_pos p t a b rest h1 h2 h3 h4]
          rw [sumAmt_cons]
          have hba : b.amount ≤ a.amount := le_of_not_lt h3
          have hrec := ih { a with amount := a.amount - b.amount }
            (by simp only; linarith) hbrest hcrest
          simp only at hrec
          rw [hrec, sumAmt_cons]
          have key := min_add_add_left b.amount (a.amount - b.amount) (sumAmt rest)
          have hsum : b.amount + (a.amount - b.amount) = a.amount := by ring
          rw [hsum] at key
          rw [min_comm] at key
          rw [← key, min_comm]
        · have hb0 : b.amount = 0 := le_antisymm (le_of_not_lt h4) (hb b (List.mem_cons_self _ _))
          rw [matchLoop_cons_lt_zero p t a b rest h1 h2 h3 h4]
          rw [ih a ha hbrest hcrest, sumAmt_cons, hb0, zero_add]

theorem matchAll_le (p t : String) :
    ∀ (asks bids : List OrderBookEntry),
      (∀ a ∈ asks, 0 ≤ a.amount) → (∀ x ∈ bids, 0 ≤ x.amount) →
      sumAmt (matchAll p t asks bids) ≤ sumAmt asks ∧
      sumAmt (matchAll p t asks bids) ≤ sumAmt bids := by
  intro asks
  induction asks with
  | nil =>
    intro bids _ hb
    rw [matchAll_nil]
    simp only [sumAmt_nil]
    exact ⟨le_refl _, sumAmt_nonneg hb⟩
  | cons a as ih =>
    intro bids hasks hb
    rw [matchAll_cons, sumAmt_append, sumAmt_cons]
    have hA := matchLoop_sales_le_askAmt p t a bids (hasks a (List.mem_cons_self _ _))
    have hcons := matchLoop_conservation p t a bids
    have hnn := matchLoop_bids_nonneg p t a bids hb
    obtain ⟨ih1, ih2⟩ := ih (matchLoop p t a bids).2
      (fun x hx => hasks x (List.mem_cons_of_mem _ hx)) hnn
    constructor
    · linarith
    · linarith

theorem rat_min_chain {A S B : ℚ} (hS : 0 ≤ S) :
    min A B + min S (B - min A B) = min (A + S) B := by
  rcases le_total A B with h | h
  · rw [min_eq_left h]
    rcases le_total S (B - A) with h2 | h2
    · rw [min_eq_left h2, min_eq_left (by linarith)]
    · rw [min_eq_right h2, min_eq_right (by linarith)]
      ring
  · rw [min_eq_right h]
    rw [show B - B = (0 : ℚ) from by ring, min_eq_right hS,
      min_eq_right (by linarith)]
    ring

theorem matchAll_cross_eq (p t : String) :
    ∀ (asks bids : List OrderBookEntry),
      (∀ a ∈ asks, 0 ≤ a.amount) → (∀ x ∈ bids, 0 ≤ x.amount) →
      (∀ a ∈ asks, ∀ x ∈ bids, a.price ≤ x.price) →
      sumAmt (matchAll p t asks bids) = min (sumAmt asks) (sumAmt bids) := by
  intro asks
  induction asks with
  | nil =>
    intro bids _ hb _
    rw [matchAll_nil]
    simp only [sumAmt_nil]
    exact (min_eq_left (sumAmt_nonneg hb)).symm
  | cons a as ih =>
    intro bids hasks hb hcross
    rw [matchAll_cons, sumAmt_append, sumAmt_cons]
    have h1 := matchLoop_sales_cross p t a bids (hasks a (List.mem_cons_self _ _)) hb
      (hcross a (List.mem_cons_self _ _))
    have hcons := matchLoop_conservation p t a bids
    have hnn := matchLoop_bids_nonneg p t a bids hb
    have hcross2 : ∀ a1 ∈ as, ∀ x ∈ (matchLoop p t a bids).2, a1.price ≤ x.price := by
      intro a1 ha1 x hx
      have hxp : x.price ∈ bids.map (fun e => e.price) := by
        rw [← matchLoop_prices p t a bids]
        exact List.mem_map_of_mem _ hx
      obtain ⟨d0, hd0, hd0p⟩ := List.mem_map.mp hxp
      rw [← hd0p]
      exact hcross a1 (List.mem_cons_of_mem _ ha1) d0 hd0
    have ihh := ih (matchLoop p t a bids).2
      (fun x hx => hasks x (List.mem_cons_of_mem _ hx)) hnn hcross2
    have hres2 : sumAmt (matchLoop p t a bids).2 =
        sumAmt bids - min a.amount (sumAmt bids) := by
      linarith
    rw [h1, ihh, hres2]
    exact rat_min_chain (sumAmt_nonneg
      (fun x hx => hasks x (List.mem_cons_of_mem _ hx)))

/-- Claim C2: per `matchAsksToBids` call, with all stored amounts non-negative,
the total traded amount never exceeds `min(sum of queried ask amounts, sum of
queried bid amounts)`, and equals that minimum whenever every queried bid's
price is at least every queried ask's price (one side fully consumable within
the price constraint). -/
theorem matchAsksToBids_quantity (product timestamp : String) (orders : Book)
    (hamt : ∀ e ∈ orders, 0 ≤ e.amount) :
    sumAmt (matchAsksToBids product timestamp orders) ≤
      min (sumAmt (getOrders OrderBookType.ask product timestamp orders))
          (sumAmt (getOrders OrderBookType.bid product timestamp orders)) ∧
    ((∀ a ∈ getOrders OrderBookType.ask product timestamp orders,
        ∀ d ∈ getOrders OrderBookType.bid product timestamp orders,
          a.price ≤ d.price) →
      sumAmt (matchAsksToBids product timestamp orders) =
        min (sumAmt (getOrders OrderBookType.ask product timestamp orders))
            (sumAmt (getOrders OrderBookType.bid product timestamp orders))) := by
  have hasksnn : ∀ a ∈ getOrders OrderBookType.ask product timestamp orders,
      0 ≤ a.amount := fun a ha => hamt a (List.mem_filter.mp ha).1
  have hbidsnn : ∀ d ∈ getOrders OrderBookType.bid product timestamp orders,
      0 ≤ d.amount := fun d hd => hamt d (List.mem_filter.mp hd).1
  rcases matchAsksToBids_eq product timestamp orders with ⟨hz, hemp⟩ | hm
  · rw [hz]
    simp only [sumAmt_nil]
    constructor
    · exact le_min (sumAmt_nonneg hasksnn) (sumAmt_nonneg hbidsnn)
    · intro _
      rcases hemp with hemp | hemp
      · rw [List.isEmpty_iff.mp hemp]
        simp only [sumAmt_nil]
        exact (min_eq_left (sumAmt_nonneg hbidsnn)).symm
      · rw [List.isEmpty_iff.mp hemp]
        simp only [sumAmt_nil]
        exact (min_eq_right (sumAmt_nonneg hasksnn)).symm
  · have hpermA := List.perm_insertionSort compareByPriceAsc
      (getOrders OrderBookType.ask product timestamp orders)
    have hpermB := List.perm_insertionSort compareByPriceDesc
      (getOrders OrderBookType.bid product timestamp orders)
    have hsumA := sumAmt_perm hpermA
    have hsumB := sumAmt_perm hpermB
    have hasksnn2 : ∀ a ∈ (getOrders OrderBookType.ask product timestamp
        orders).insertionSort compareByPriceAsc, 0 ≤ a.amount :=
      fun a ha => hasksnn a (hpermA.mem_iff.mp ha)
    have hbidsnn2 : ∀ d ∈ (getOrders OrderBookType.bid product timestamp
        orders).insertionSort compareByPriceDesc, 0 ≤ d.amount :=
      fun d hd => hbidsnn d (hpermB.mem_iff.mp hd)
    rw [hm]
    constructor
    · obtain ⟨hle1, hle2⟩ := matchAll_le product timestamp _ _ hasksnn2 hbidsnn2
      rw [hsumA] at hle1
      rw [hsumB] at hle2
      exact le_min hle1 hle2
    · intro hcross
      have hcross2 : ∀ a ∈ (getOrders OrderBookType.ask product timestamp
          orders).insertionSort compareByPriceAsc,
          ∀ d ∈ (getOrders OrderBookType.bid product timestamp
            orders).insertionSort compareByPriceDesc, a.price ≤ d.price :=
        fun a ha d hd => hcross a (hpermA.mem_iff.mp ha) d (hpermB.mem_iff.mp hd)
      rw [matchAll_cross_eq product timestamp _ _ hasksnn2 hbidsnn2 hcross2,
        hsumA, hsumB]

/-- Claim C2 witness: on the round-trip example the traded amount equals the
minimum of the two side totals. -/
theorem matchAsksToBids_quantity_witness :
    sumAmt (matchAsksToBids "ETH/BTC" "u" bookRT) =
      min (sumAmt (getOrders OrderBookType.ask "ETH/BTC" "u" bookRT))
          (sumAmt (getOrders OrderBookType.bid "ETH/BTC" "u" bookRT)) :=
  (matchAsksToBids_quantity "ETH/BTC" "u" bookRT (by decide)).2
    (by with_unfolding_all decide)

/-! ### Insertion (C7) -/

theorem insertSeq_perm :
    ∀ {b : Book} {os : List OrderBookEntry} {after : Book},
      InsertSeq b os after → after.Perm (b ++ os) := by
  intro b os after h
  induction h with
  | nil b => simp
  | cons h1 _ ih =>
    refine ih.trans ?_
    refine (h1.1.append_right _).trans ?_
    rw [List.append_assoc, List.singleton_append]

theorem insertSeq_sorted :
    ∀ {b : Book} {os : List OrderBookEntry} {after : Book},
      InsertSeq b os after → b.Pairwise tsLe → after.Pairwise tsLe := by
  intro b os after h
  induction h with
  | nil _ => exact fun hs => hs
  | cons h1 _ ih => exact fun _ => ih h1.2

/-- Claim C7 (amended): after any sequence of `insertOrder` calls on a
timestamp-sorted store, every admissible resulting store is again sorted
non-decreasing by timestamp, is a permutation of the old store plus the
inserted records, and every inserted record remains retrievable by `getOrders`
with its own side, product and timestamp.  (The relative order of records with
equal timestamps is NOT specified: `std::sort` is not stable; see
`insertOrder_not_stable`.) -/
theorem insertOrder_sorted_retrievable (b : Book) (os : List OrderBookEntry)
    (after : Book) (hs : b.Pairwise tsLe) (hins : InsertSeq b os after) :
    after.Pairwise tsLe ∧ after.Perm (b ++ os) ∧
    ∀ o ∈ os, o ∈ getOrders o.orderType o.product o.timestamp after := by
  have hperm : after.Perm (b ++ os) := insertSeq_perm hins
  refine ⟨insertSeq_sorted hins hs, hperm, ?_⟩
  intro o ho
  have hmem : o ∈ after := hperm.mem_iff.mpr (List.mem_append_right b ho)
  rw [getOrders, List.mem_filter]
  exact ⟨hmem, by simp⟩

/-- First record of the C7 counterexample store. -/
def cx1 : OrderBookEntry := ⟨1, 1, "t", "P", OrderBookType.ask, "dataset"⟩

/-- Second record of the C7 counterexample: same timestamp, different price. -/
def cx2 : OrderBookEntry := ⟨2, 1, "t", "P", OrderBookType.ask, "dataset"⟩

/-- Claim C7 counterexample: inserting `cx2` into the sorted store `[cx1]`
admits the result `[cx2, cx1]` — a sorted permutation, hence a valid
`std::sort` outcome — in which the tie on the equal timestamp is NOT broken
by insertion order, so "re-sort on each insert is stable" fails on the code. -/
theorem insertOrder_not_stable :
    InsertSeq [cx1] [cx2] [cx2, cx1] ∧ ([cx2, cx1] : Book) ≠ [cx1, cx2] := by
  constructor
  · exact InsertSeq.cons ⟨List.Perm.swap cx1 cx2 [], by decide⟩ (InsertSeq.nil _)
  · decide

/-- Claim C7 witness: the amended statement applied to the concrete insertion
of `cx2` into `[cx1]` with outcome `[cx2, cx1]`. -/
theorem insertOrder_sorted_retrievable_witness :
    ([cx2, cx1] : Book).Pairwise tsLe ∧
    cx2 ∈ getOrders cx2.orderType cx2.product cx2.timestamp [cx2, cx1] := by
  have h := insertOrder_sorted_retrievable [cx1] [cx2] [cx2, cx1]
    (by decide)
    (InsertSeq.cons ⟨List.Perm.swap cx1 cx2 [], by decide⟩ (InsertSeq.nil _))
  exact ⟨h.1, h.2.2 cx2 (List.mem_singleton.mpr rfl)⟩
